import Mathlib

/-!
Verification of the distributed particle simulator (quadtree spatial index,
spatial partitioner, halo exchange, periodic redistribution, output reorder).

The embedding models 32-bit float arithmetic by exact rational arithmetic:
every float expression of the source is translated literally over `ℚ`, and
comparisons against `sqrt` expressions are translated to the equivalent
squared comparisons (`sqrt s < r ↔ 0 < r ∧ s < r²` for `s ≥ 0`).
Machine loop counters and sizes are `ℕ`/`ℤ`; `(int)` casts on nonnegative
floats are truncation toward zero.
-/

set_option allowUnsafeReducibility true

attribute [local semireducible] Rat.add Rat.sub Rat.mul Rat.inv

set_option maxRecDepth 8000

/-- 2D vector of (exact-arithmetic) floats, from `common.h`. -/
structure Vec2 where
  x : ℚ
  y : ℚ
deriving DecidableEq, Repr

instance : Add Vec2 := ⟨fun a b => ⟨a.x + b.x, a.y + b.y⟩⟩

instance : Sub Vec2 := ⟨fun a b => ⟨a.x - b.x, a.y - b.y⟩⟩

/-- Particle record: `{ int id; float mass; Vec2 position; Vec2 velocity }`. -/
structure Particle where
  id : ℤ
  mass : ℚ
  position : Vec2
  velocity : Vec2
deriving DecidableEq, Repr

/-- Squared Euclidean length of a vector; the source's `length()` is its square root. -/
def sqLength (v : Vec2) : ℚ := v.x * v.x + v.y * v.y

/-- The source's leaf-test `(position - p.position).length() < radius`,
with the square root eliminated exactly. -/
def distLtRadius (a b : Vec2) (r : ℚ) : Bool :=
  decide (0 < r ∧ sqLength (a - b) < r * r)

/-- Squared form of `boxPointDistance` from `quad-tree.h`:
`dx = fmaxf(fmaxf(bmin.x - p.x, p.x - bmax.x), 0)` and likewise for `dy`;
the source returns `sqrt (dx*dx + dy*dy)`. -/
def boxPointDistSq (bmin bmax p : Vec2) : ℚ :=
  let dx := max (max (bmin.x - p.x) (p.x - bmax.x)) 0
  let dy := max (max (bmin.y - p.y) (p.y - bmax.y)) 0
  dx * dx + dy * dy

/-- The source's pruning test `boxPointDistance(childBMin, childBMax, position) <= radius`,
with the square root eliminated exactly. -/
def boxPointDistLeRadius (bmin bmax p : Vec2) (r : ℚ) : Bool :=
  decide (0 ≤ r ∧ boxPointDistSq bmin bmax p ≤ r * r)

/-- `QuadTreeLeafSize` from `quad-tree.h`. -/
def QuadTreeLeafSize : ℕ := 256

/-- A quadtree node: a leaf holding particles or four children
(`isLeaf` together with the `children`/`particles` fields of `QuadTreeNode`). -/
inductive QuadTreeNode where
  | leaf (particles : List Particle)
  | node (c0 c1 c2 c3 : QuadTreeNode)
deriving DecidableEq, Repr

/-- Quadrant-0 (top-left) test of `buildQuadTreeImpl`:
`p.position.x <= x_split && p.position.y <= y_split`. -/
def inQuad0 (xs ys : ℚ) (p : Particle) : Bool :=
  decide (p.position.x ≤ xs ∧ p.position.y ≤ ys)

/-- Quadrant-1 (top-right) test: `p.position.x > x_split && p.position.y <= y_split`. -/
def inQuad1 (xs ys : ℚ) (p : Particle) : Bool :=
  decide (xs < p.position.x ∧ p.position.y ≤ ys)

/-- Quadrant-2 (bottom-left) test: `p.position.x <= x_split && p.position.y > y_split`. -/
def inQuad2 (xs ys : ℚ) (p : Particle) : Bool :=
  decide (p.position.x ≤ xs ∧ ys < p.position.y)

/-- Quadrant-3 (bottom-right) test: `p.position.x > x_split && p.position.y > y_split`. -/
def inQuad3 (xs ys : ℚ) (p : Particle) : Bool :=
  decide (xs < p.position.x ∧ ys < p.position.y)

/-- `QuadTree::buildQuadTreeImpl`, with a fuel parameter bounding the recursion
depth: `none` means the C++ recursion does not finish within `fuel` levels
(in particular, `none` for every fuel models non-termination). The quadrant
sub-boxes are exactly the `bmin_new`/`bmax_new` assignments of the source. -/
def buildQuadTreeImpl : ℕ → List Particle → Vec2 → Vec2 → Option QuadTreeNode
  | 0, _, _, _ => none
  | fuel + 1, particles, bmin, bmax =>
    let xs := (bmin.x + bmax.x) / 2
    let ys := (bmin.y + bmax.y) / 2
    if particles.length ≤ QuadTreeLeafSize then
      some (.leaf particles)
    else
      (buildQuadTreeImpl fuel (particles.filter (inQuad0 xs ys)) bmin ⟨xs, ys⟩).bind fun c0 =>
      (buildQuadTreeImpl fuel (particles.filter (inQuad1 xs ys)) ⟨xs, bmin.y⟩ ⟨bmax.x, ys⟩).bind fun c1 =>
      (buildQuadTreeImpl fuel (particles.filter (inQuad2 xs ys)) ⟨bmin.x, ys⟩ ⟨xs, bmax.y⟩).bind fun c2 =>
      (buildQuadTreeImpl fuel (particles.filter (inQuad3 xs ys)) ⟨xs, ys⟩ bmax).map fun c3 =>
      .node c0 c1 c2 c3

/-- A built quadtree: root node plus overall bounds, as in class `QuadTree`. -/
structure QuadTree where
  root : QuadTreeNode
  bmin : Vec2
  bmax : Vec2
deriving DecidableEq, Repr

/-- One `fminf`/`fmaxf` update of the running bounds in `buildQuadTree`. -/
def boundsStep (b : Vec2 × Vec2) (p : Particle) : Vec2 × Vec2 :=
  (⟨min b.1.x p.position.x, min b.1.y p.position.y⟩,
   ⟨max b.2.x p.position.x, max b.2.y p.position.y⟩)

/-- The bounds computation at the head of `QuadTree::buildQuadTree`:
fold of `fminf`/`fmaxf` starting from `(1e30, 1e30)` and `(-1e30, -1e30)`. -/
def computeBounds (particles : List Particle) : Vec2 × Vec2 :=
  particles.foldl boundsStep (⟨10 ^ 30, 10 ^ 30⟩, ⟨-10 ^ 30, -10 ^ 30⟩)

/-- `QuadTree::buildQuadTree`: compute bounds, then build nodes. -/
def buildQuadTree (fuel : ℕ) (particles : List Particle) : Option QuadTree :=
  let b := computeBounds particles
  (buildQuadTreeImpl fuel particles b.1 b.2).map fun root => ⟨root, b.1, b.2⟩

/-- `QuadTree::getParticlesImpl`. At a leaf, filter by the distance test; at an
internal node, descend into each child whose box (recomputed from `pivot` and
`size` exactly as in the source) passes the pruning test, appending results in
child order 0,1,2,3. -/
def getParticlesImpl : QuadTreeNode → Vec2 → Vec2 → Vec2 → ℚ → List Particle
  | .leaf ps, _, _, position, radius =>
      ps.filter fun p => distLtRadius position p.position radius
  | .node c0 c1 c2 c3, bmin, bmax, position, radius =>
      let px := (bmin.x + bmax.x) / 2
      let py := (bmin.y + bmax.y) / 2
      let sx := (bmax.x - bmin.x) / 2
      let sy := (bmax.y - bmin.y) / 2
      (if boxPointDistLeRadius ⟨bmin.x, bmin.y⟩ ⟨bmin.x + sx, bmin.y + sy⟩ position radius then
        getParticlesImpl c0 ⟨bmin.x, bmin.y⟩ ⟨bmin.x + sx, bmin.y + sy⟩ position radius else []) ++
      (if boxPointDistLeRadius ⟨px, bmin.y⟩ ⟨px + sx, bmin.y + sy⟩ position radius then
        getParticlesImpl c1 ⟨px, bmin.y⟩ ⟨px + sx, bmin.y + sy⟩ position radius else []) ++
      (if boxPointDistLeRadius ⟨bmin.x, py⟩ ⟨bmin.x + sx, py + sy⟩ position radius then
        getParticlesImpl c2 ⟨bmin.x, py⟩ ⟨bmin.x + sx, py + sy⟩ position radius else []) ++
      (if boxPointDistLeRadius ⟨px, py⟩ ⟨px + sx, py + sy⟩ position radius then
        getParticlesImpl c3 ⟨px, py⟩ ⟨px + sx, py + sy⟩ position radius else [])

/-- `QuadTree::getParticles`: query from the root with the stored bounds
(the result buffer is cleared first, so the result is exactly the descent's output). -/
def getParticles (t : QuadTree) (position : Vec2) (radius : ℚ) : List Particle :=
  getParticlesImpl t.root t.bmin t.bmax position radius

/-- Membership of a point in a closed axis-aligned box. -/
def inBox (bmin bmax v : Vec2) : Prop :=
  bmin.x ≤ v.x ∧ v.x ≤ bmax.x ∧ bmin.y ≤ v.y ∧ v.y ≤ bmax.y

/-- A particle list all of whose members lie at one position: the degenerate
input of the termination claim (`QuadTreeLeafSize + 1` coincident particles). -/
def coincidentParticle : Particle := ⟨0, 1, ⟨0, 0⟩, ⟨0, 0⟩⟩

/-- `bound_t` from the MPI simulator: `{Vec2 min; Vec2 max;}`. -/
structure Bound where
  min : Vec2
  max : Vec2
deriving DecidableEq, Repr

/-- `bounds_overlap` from the final simulator, translated literally: note the
second zeroing guard compares `b1.max.y` with `b1.min.y` (as the source does). -/
def bounds_overlap (radius : ℚ) (b1 b2 : Bound) : Bool :=
  let dx0 := min |b1.min.x - b2.max.x| |b2.min.x - b1.max.x|
  let dx : ℚ := if b1.max.x ≥ b2.min.x ∧ b1.min.x ≤ b2.max.x then 0 else dx0
  let dy0 := min |b2.min.y - b1.max.y| |b1.min.y - b2.max.y|
  let dy : ℚ := if b1.max.y ≥ b1.min.y ∧ b1.min.y ≤ b2.max.y then 0 else dy0
  decide (dx * dx + dy * dy ≤ radius * radius)

/-- Modelled from the spec: `dist` is "the minimum point-to-point distance
between two axis-aligned rectangles (zero when they overlap)"; this is its
square, used to compare `dist ≤ radius` without square roots. -/
def rectDistSq (b1 b2 : Bound) : ℚ :=
  let dx := max (max (b1.min.x - b2.max.x) (b2.min.x - b1.max.x)) 0
  let dy := max (max (b1.min.y - b2.max.y) (b2.min.y - b1.max.y)) 0
  dx * dx + dy * dy

/-- Truncation toward zero, the meaning of a C `(int)` cast of a float value. -/
def ratTrunc (q : ℚ) : ℤ := if 0 ≤ q then ⌊q⌋ else ⌈q⌉

/-- `get_pid_of_coord` from the final simulator:
`x = (int) coords.x / ceil(x_blocksize); y = (int) coords.y / ceil(y_blocksize);
return y * dim + x;` (the `retval >= nproc` branch only prints — the
`assert(false)` in it is commented out, so the value is returned as-is). -/
def get_pid_of_coord (dim : ℤ) (x_blocksize y_blocksize : ℚ) (coords : Vec2) : ℤ :=
  let x := ratTrunc ((ratTrunc coords.x : ℚ) / (⌈x_blocksize⌉ : ℚ))
  let y := ratTrunc ((ratTrunc coords.y : ℚ) / (⌈y_blocksize⌉ : ℚ))
  y * dim + x

/-- The owner computation applied to a particle by `recompute_local_particles`:
block sizes `spacedim / dim` per axis, coordinates translated by `global_min`. -/
def particleOwner (dim : ℤ) (gmin gmax : Vec2) (p : Particle) : ℤ :=
  get_pid_of_coord dim ((gmax.x - gmin.x) / (dim : ℚ)) ((gmax.y - gmin.y) / (dim : ℚ))
    ⟨p.position.x - gmin.x, p.position.y - gmin.y⟩

/-- `recompute_local_particles`: keep exactly the particles whose computed
owner equals this worker's `pid`. -/
def recompute_local_particles (dim : ℤ) (pid : ℤ) (gmin gmax : Vec2)
    (particles : List Particle) : List Particle :=
  particles.filter fun p => particleOwner dim gmin gmax p == pid

/-- `sizeof(Particle)`: 24 bytes (`int` id, `float` mass, two 2-float vectors). -/
def sizeofParticle : ℕ := 24

/-- The per-worker particle counts gathered into `particle_list_sizes` by the
`MPI_Allgather` after `recompute_local_particles` (before the `*= sizeof` step). -/
def workerCounts (dim : ℤ) (gmin gmax : Vec2) (W : ℕ) (particles : List Particle) : List ℕ :=
  (List.range W).map fun j => (recompute_local_particles dim (Int.ofNat j) gmin gmax particles).length

/-- The displacement loop of the redistribution step: each size is scaled to
bytes and `acc` accumulates their sum (the prefix sums become the displacements). -/
def sizeDisplAcc (counts : List ℕ) : ℕ :=
  counts.foldl (fun acc c => acc + c * sizeofParticle) 0

/-- The assertion guard after the displacement loop:
`acc != particles.size() * sizeof(Particle)` triggers `assert(false)`;
this predicate holds exactly when the program survives. -/
def sizeCheckPasses (counts : List ℕ) (numParticles : ℕ) : Bool :=
  sizeDisplAcc counts == numParticles * sizeofParticle

/-- `REBUILD_GRANULARITY` from the final simulator. -/
def REBUILD_GRANULARITY : ℕ := 4

/-- The redistribution condition of the main loop: `i % REBUILD_GRANULARITY == 0`. -/
def rebuildIteration (i : ℕ) : Bool := i % REBUILD_GRANULARITY == 0

/-- `update_bounds`: component-wise `fminf`/`fmaxf` merge of a particle's
position into running bounds. -/
def update_bounds (p : Particle) (bmin bmax : Vec2) : Vec2 × Vec2 :=
  (⟨min bmin.x p.position.x, min bmin.y p.position.y⟩,
   ⟨max bmax.x p.position.x, max bmax.y p.position.y⟩)

/-- The force accumulation of one `simulateStep` loop body: query the tree at
the particle's position with the cull radius, then sum `computeForce` over the
returned neighbor list starting from `(0, 0)`. The force/integrator kernels are
the spec's opaque pure collaborators, passed as function arguments. -/
def particleForce (computeForce : Particle → Particle → ℚ → Vec2)
    (tree : QuadTree) (p : Particle) (cullRadius : ℚ) : Vec2 :=
  (getParticles tree p.position cullRadius).foldl
    (fun f p1 => f + computeForce p p1 cullRadius) ⟨0, 0⟩

/-- `simulateStep` of the final simulator: for each local particle in order,
accumulate its force, integrate with `updateParticle`, store the result at the
same index, and merge the new position into the running `(bmin, bmax)` via
`update_bounds`. Returns the new particle list and the final bounds. -/
def simulateStep (computeForce : Particle → Particle → ℚ → Vec2)
    (updateParticle : Particle → Vec2 → ℚ → Particle)
    (tree : QuadTree) (local_particles : List Particle)
    (cullRadius deltaTime : ℚ) (bmin bmax : Vec2) : List Particle × Vec2 × Vec2 :=
  match local_particles with
  | [] => ([], bmin, bmax)
  | p :: rest =>
    let force := particleForce computeForce tree p cullRadius
    let new_p := updateParticle p force deltaTime
    let b := update_bounds new_p bmin bmax
    let out := simulateStep computeForce updateParticle tree rest cullRadius deltaTime b.1 b.2
    (new_p :: out.1, out.2)

/-- The `ord` map built at load time: `for p in particles: ord.insert((p.id, i)); i += 1`.
`unordered_map::insert` keeps the first binding of a key, as association-list
lookup does. -/
def buildOrdAux : List Particle → ℕ → List (ℤ × ℕ)
  | [], _ => []
  | p :: rest, i => (p.id, i) :: buildOrdAux rest (i + 1)

/-- The id-to-original-index map, counting from 0. -/
def buildOrd (particles : List Particle) : List (ℤ × ℕ) := buildOrdAux particles 0

/-- The value-initialized particle of `target.resize(...)`. -/
def defaultParticle : Particle := ⟨0, 0, ⟨0, 0⟩, ⟨0, 0⟩⟩

/-- The index read `ord[p.id]` of the output loop (a missing id reads as 0,
like `unordered_map::operator[]` default-inserting a zero value). -/
def ordIndex (ord : List (ℤ × ℕ)) (p : Particle) : ℕ := (ord.lookup p.id).getD 0

/-- The coordinator's output reordering: `target.resize(n)`, then
`for p in particles: target[ord[p.id]] = p`. -/
def reorderParticles (ord : List (ℤ × ℕ)) (gathered : List Particle) : List Particle :=
  gathered.foldl (fun target p => target.set (ordIndex ord p) p)
    (List.replicate gathered.length defaultParticle)

/-- A four-particle population, one per cell of the 2 × 2 worker grid over
`[0,10]²`: example input for the redistribution theorems. -/
def partitionParticles : List Particle :=
  [⟨1, 1, ⟨3, 3⟩, ⟨0, 0⟩⟩, ⟨2, 1, ⟨7, 3⟩, ⟨0, 0⟩⟩, ⟨3, 1, ⟨3, 7⟩, ⟨0, 0⟩⟩, ⟨4, 1, ⟨7, 7⟩, ⟨0, 0⟩⟩]

/-- The spec's ordering scenario: input ids `[7, 3, 9, 1]`. -/
def orderInput : List Particle :=
  [⟨7, 1, ⟨0, 0⟩, ⟨0, 0⟩⟩, ⟨3, 1, ⟨1, 1⟩, ⟨0, 0⟩⟩, ⟨9, 1, ⟨2, 2⟩, ⟨0, 0⟩⟩, ⟨1, 1, ⟨3, 3⟩, ⟨0, 0⟩⟩]

/-- The same ids as `orderInput`, gathered in a different (worker) order with
updated positions, as after the final allgather. -/
def orderGathered : List Particle :=
  [⟨1, 1, ⟨5, 5⟩, ⟨0, 0⟩⟩, ⟨9, 1, ⟨6, 6⟩, ⟨0, 0⟩⟩, ⟨3, 1, ⟨7, 7⟩, ⟨0, 0⟩⟩, ⟨7, 1, ⟨8, 8⟩, ⟨0, 0⟩⟩]

theorem Vec2.sub_x (a b : Vec2) : (a - b).x = a.x - b.x := rfl

theorem Vec2.sub_y (a b : Vec2) : (a - b).y = a.y - b.y := rfl

theorem Vec2.add_x (a b : Vec2) : (a + b).x = a.x + b.x := rfl

theorem Vec2.add_y (a b : Vec2) : (a + b).y = a.y + b.y := rfl

/-- C2: the claim fails on the code. With `b1 = [0,1] × [0,1]`,
`b2 = [0,1] × [10,11]` and `radius = 1`, the minimum rectangle-to-rectangle
distance is `9 > 1`, so the claimed equivalence demands `false`; yet
`bounds_overlap` returns `true`, because its `dy`-zeroing guard reads
`b1.max.y >= b1.min.y` (a self-comparison, true for every well-formed bound)
where the symmetric `x` guard reads `b1.max.x >= b2.min.x`. -/
theorem bounds_overlap_breaks_rect_dist_claim :
    bounds_overlap 1 ⟨⟨0, 0⟩, ⟨1, 1⟩⟩ ⟨⟨0, 10⟩, ⟨1, 11⟩⟩ = true ∧
    rectDistSq ⟨⟨0, 0⟩, ⟨1, 1⟩⟩ ⟨⟨0, 10⟩, ⟨1, 11⟩⟩ = 81 ∧
    ¬((81 : ℚ) ≤ 1 * 1) := by
  refine ⟨by decide, by decide, by decide⟩

/-- C6 counterexample: at iteration 4 the code redistributes
(`4 % REBUILD_GRANULARITY == 0` with `REBUILD_GRANULARITY = 4`), although the
claimed schedule `i mod 8 = 0` says it must not. -/
theorem rebuild_at_four_refutes_eight :
    rebuildIteration 4 = true ∧ ¬(4 % 8 = 0) := by decide

/-- C6 amended: the redistribution runs before the first iteration (i = 0) and
then exactly every `REBUILD_GRANULARITY = 4` iterations: in iteration `i` if
and only if `i mod 4 = 0`. -/
theorem rebuild_iff_mod_four (i : ℕ) :
    rebuildIteration i = true ↔ i % 4 = 0 := by
  simp [rebuildIteration, REBUILD_GRANULARITY]

/-- C4 counterexample: with global bounds `[0,10] × [0,10]` and `dim = 2`
(so `W = 4`), a particle exactly on `global_max` is mapped to owner `6`,
which is not in `[0, 4)`: the code does not clamp to the last cell when the
block size divides the extent exactly. -/
theorem owner_at_global_max_out_of_range :
    particleOwner 2 ⟨0, 0⟩ ⟨10, 10⟩ ⟨1, 1, ⟨10, 10⟩, ⟨0, 0⟩⟩ = 6 ∧
    ¬(particleOwner 2 ⟨0, 0⟩ ⟨10, 10⟩ ⟨1, 1, ⟨10, 10⟩, ⟨0, 0⟩⟩ < 4) := by
  constructor
  · decide
  · decide

/-- One axis of the owner computation: a coordinate `c` with `0 ≤ c < s`
lands in a cell index in `[0, dim)` because `ceil` rounds the block size up. -/
theorem axis_cell_in_range (dim : ℤ) (c s : ℚ) (hdim : 0 < dim) (hc : 0 ≤ c) (hcs : c < s) :
    0 ≤ ratTrunc ((ratTrunc c : ℚ) / (⌈s / (dim : ℚ)⌉ : ℚ)) ∧
    ratTrunc ((ratTrunc c : ℚ) / (⌈s / (dim : ℚ)⌉ : ℚ)) < dim := by
  have hdq : (0 : ℚ) < (dim : ℚ) := by exact_mod_cast hdim
  have hs : 0 < s := lt_of_le_of_lt hc hcs
  have hbs : 0 < s / (dim : ℚ) := div_pos hs hdq
  have hce : 0 < ⌈s / (dim : ℚ)⌉ := Int.ceil_pos.mpr hbs
  have hceq : (0 : ℚ) < (⌈s / (dim : ℚ)⌉ : ℚ) := by exact_mod_cast hce
  have htc : ratTrunc c = ⌊c⌋ := if_pos hc
  have h0 : (0 : ℚ) ≤ (⌊c⌋ : ℚ) := by
    have := Int.floor_nonneg.mpr hc
    exact_mod_cast this
  have hinner : 0 ≤ (⌊c⌋ : ℚ) / (⌈s / (dim : ℚ)⌉ : ℚ) := div_nonneg h0 hceq.le
  rw [htc]
  rw [show ratTrunc ((⌊c⌋ : ℚ) / (⌈s / (dim : ℚ)⌉ : ℚ)) = ⌊(⌊c⌋ : ℚ) / (⌈s / (dim : ℚ)⌉ : ℚ)⌋
    from if_pos hinner]
  refine ⟨Int.floor_nonneg.mpr hinner, ?_⟩
  apply Int.floor_lt.mpr
  rw [div_lt_iff₀ hceq]
  calc (⌊c⌋ : ℚ) ≤ c := Int.floor_le c
    _ < s := hcs
    _ = (s / (dim : ℚ)) * (dim : ℚ) := by field_simp
    _ ≤ (⌈s / (dim : ℚ)⌉ : ℚ) * (dim : ℚ) := by
        exact mul_le_mul_of_nonneg_right (Int.le_ceil _) hdq.le
    _ = (dim : ℚ) * (⌈s / (dim : ℚ)⌉ : ℚ) := by ring

/-- C4 amended: for any global bounds and any particle strictly inside them
(each coordinate at least `global_min` and strictly below `global_max`), with
`0 < dim` and `dim * dim ≤ W`, the owner computed by `get_pid_of_coord` after
translating by `global_min` is a worker index in `[0, W)`. (Positions exactly
on `global_max` are not always clamped to the last cell: see the counterexample.) -/
theorem owner_in_range_of_strictly_inside (dim W : ℤ) (gmin gmax : Vec2) (p : Particle)
    (hdim : 0 < dim) (hW : dim * dim ≤ W)
    (hx1 : gmin.x ≤ p.position.x) (hx2 : p.position.x < gmax.x)
    (hy1 : gmin.y ≤ p.position.y) (hy2 : p.position.y < gmax.y) :
    0 ≤ particleOwner dim gmin gmax p ∧ particleOwner dim gmin gmax p < W := by
  have hx := axis_cell_in_range dim (p.position.x - gmin.x) (gmax.x - gmin.x) hdim
    (by linarith) (by linarith)
  have hy := axis_cell_in_range dim (p.position.y - gmin.y) (gmax.y - gmin.y) hdim
    (by linarith) (by linarith)
  unfold particleOwner get_pid_of_coord
  dsimp only
  constructor
  · nlinarith [hx.1, hy.1, hx.2, hy.2]
  · nlinarith [hx.1, hy.1, hx.2, hy.2]

/-- C4 amended witness: `dim = 2`, `W = 4`, bounds `[0,10]²`, particle at
`(3, 7)` strictly inside: the owner is in `[0, 4)`. -/
theorem owner_in_range_of_strictly_inside_witness :
    ((0 : ℤ) < 2 ∧ (2 : ℤ) * 2 ≤ 4 ∧
      (Vec2.mk 0 0).x ≤ (Vec2.mk 3 7).x ∧ (Vec2.mk 3 7).x < (Vec2.mk 10 10).x ∧
      (Vec2.mk 0 0).y ≤ (Vec2.mk 3 7).y ∧ (Vec2.mk 3 7).y < (Vec2.mk 10 10).y) ∧
    (0 ≤ particleOwner 2 ⟨0, 0⟩ ⟨10, 10⟩ ⟨1, 1, ⟨3, 7⟩, ⟨0, 0⟩⟩ ∧
      particleOwner 2 ⟨0, 0⟩ ⟨10, 10⟩ ⟨1, 1, ⟨3, 7⟩, ⟨0, 0⟩⟩ < 4) := by
  refine ⟨by decide, ?_⟩
  exact owner_in_range_of_strictly_inside 2 4 ⟨0, 0⟩ ⟨10, 10⟩ ⟨1, 1, ⟨3, 7⟩, ⟨0, 0⟩⟩
    (by decide) (by decide) (by decide) (by decide) (by decide) (by decide)

/-- Folding a function over `replicate` from a fixed point stays there. -/
theorem foldl_replicate_fixed {α β : Type} (f : β → α → β) (b : β) (a : α) (h : f b a = b) :
    ∀ n, List.foldl f b (List.replicate n a) = b
  | 0 => rfl
  | n + 1 => by
    rw [List.replicate_succ, List.foldl_cons, h, foldl_replicate_fixed f b a h n]

/-- The bounds of any positive number of particles at the origin are `[0,0] × [0,0]`. -/
theorem computeBounds_replicate_coincident (n : ℕ) :
    computeBounds (List.replicate (n + 1) coincidentParticle) = (⟨0, 0⟩, ⟨0, 0⟩) := by
  unfold computeBounds coincidentParticle boundsStep
  rw [List.replicate_succ, List.foldl_cons]
  have hmin : ((10 : ℚ) ^ 30) ⊓ 0 = 0 := min_eq_right (by positivity)
  have hmax : (-(10 : ℚ) ^ 30) ⊔ 0 = 0 := max_eq_right (by norm_num)
  simp only [hmin, hmax]
  apply foldl_replicate_fixed
  simp

/-- The recursion of `buildQuadTreeImpl` is stuck on `QuadTreeLeafSize + 1`
coincident particles: with the degenerate box `[0,0] × [0,0]` every particle
satisfies the quadrant-0 test and the quadrant-0 sub-box equals the input box,
so no fuel suffices. -/
theorem buildQuadTreeImpl_coincident_none (fuel : ℕ) :
    buildQuadTreeImpl fuel (List.replicate (QuadTreeLeafSize + 1) coincidentParticle)
      ⟨0, 0⟩ ⟨0, 0⟩ = none := by
  induction fuel with
  | zero => rfl
  | succ n ih =>
    rw [buildQuadTreeImpl]
    have hlen : ¬((List.replicate (QuadTreeLeafSize + 1) coincidentParticle).length
        ≤ QuadTreeLeafSize) := by simp [QuadTreeLeafSize]
    simp only [if_neg hlen]
    have hq : (List.replicate (QuadTreeLeafSize + 1) coincidentParticle).filter
        (inQuad0 (((Vec2.mk 0 0).x + (Vec2.mk 0 0).x) / 2) (((Vec2.mk 0 0).y + (Vec2.mk 0 0).y) / 2))
        = List.replicate (QuadTreeLeafSize + 1) coincidentParticle := by
      rw [List.filter_replicate]
      simp [inQuad0, coincidentParticle]
    have hbox : (Vec2.mk (((Vec2.mk 0 0).x + (Vec2.mk 0 0).x) / 2)
        (((Vec2.mk 0 0).y + (Vec2.mk 0 0).y) / 2)) = Vec2.mk 0 0 := by
      norm_num
    rw [hq, hbox, ih]
    rfl

/-- C7: the claim fails on the code. For the degenerate input of
`QuadTreeLeafSize + 1 = 257` particles at one shared position, the source's
`buildQuadTreeImpl` recurses forever (quadrant 0 receives the whole list with
an unchanged box), so the build does not terminate at any recursion depth and
no query on the resulting tree exists. -/
theorem buildQuadTree_coincident_never_terminates (fuel : ℕ) :
    buildQuadTree fuel (List.replicate (QuadTreeLeafSize + 1) coincidentParticle) = none := by
  unfold buildQuadTree
  have hb : computeBounds (List.replicate (QuadTreeLeafSize + 1) coincidentParticle)
      = (⟨0, 0⟩, ⟨0, 0⟩) := computeBounds_replicate_coincident _
  rw [hb]
  dsimp only
  rw [buildQuadTreeImpl_coincident_none]
  rfl

/-- C10: `simulateStep` returns a particle list of exactly the input length in
which the j-th element is `updateParticle` applied to the j-th input particle
and its accumulated force (the fold of `computeForce` over that particle's
radius query): an iteration neither creates nor destroys particles and
preserves local order. -/
theorem simulateStep_is_elementwise_update
    (cf : Particle → Particle → ℚ → Vec2) (up : Particle → Vec2 → ℚ → Particle)
    (tree : QuadTree) (l : List Particle) (r dt : ℚ) (bmin bmax : Vec2) :
    (simulateStep cf up tree l r dt bmin bmax).1.length = l.length ∧
    (simulateStep cf up tree l r dt bmin bmax).1 =
      l.map fun p => up p (particleForce cf tree p r) dt := by
  induction l generalizing bmin bmax with
  | nil => exact ⟨rfl, rfl⟩
  | cons p rest ih =>
    simp only [simulateStep]
    obtain ⟨ih1, ih2⟩ := ih (update_bounds (up p (particleForce cf tree p r) dt) bmin bmax).1
      (update_bounds (up p (particleForce cf tree p r) dt) bmin bmax).2
    refine ⟨?_, ?_⟩
    · simp [List.length_cons, ih1]
    · simp [ih2]

/-- C9 amended: after `simulateStep` the bounds are the `update_bounds` merge
of the incoming bounds with the updated positions: every updated particle
position lies inside them, and they still contain the incoming bounds interval
— so they are monotone-merged, not recomputed, and need not be tight. -/
theorem simulateStep_bounds_merge
    (cf : Particle → Particle → ℚ → Vec2) (up : Particle → Vec2 → ℚ → Particle)
    (tree : QuadTree) (l : List Particle) (r dt : ℚ) (bmin bmax : Vec2) :
    (∀ q ∈ (simulateStep cf up tree l r dt bmin bmax).1,
        inBox (simulateStep cf up tree l r dt bmin bmax).2.1
          (simulateStep cf up tree l r dt bmin bmax).2.2 q.position) ∧
    ((simulateStep cf up tree l r dt bmin bmax).2.1.x ≤ bmin.x ∧
     (simulateStep cf up tree l r dt bmin bmax).2.1.y ≤ bmin.y ∧
     bmax.x ≤ (simulateStep cf up tree l r dt bmin bmax).2.2.x ∧
     bmax.y ≤ (simulateStep cf up tree l r dt bmin bmax).2.2.y) := by
  induction l generalizing bmin bmax with
  | nil =>
    refine ⟨by simp [simulateStep], ?_⟩
    simp [simulateStep]
  | cons p rest ih =>
    simp only [simulateStep]
    set newp := up p (particleForce cf tree p r) dt with hnewp
    obtain ⟨ihmem, ihmono⟩ := ih (update_bounds newp bmin bmax).1 (update_bounds newp bmin bmax).2
    constructor
    · intro q hq
      rcases List.mem_cons.mp hq with hq | hq
      · subst hq
        refine ⟨?_, ?_, ?_, ?_⟩
        · exact le_trans ihmono.1 (min_le_right _ _)
        · exact le_trans (le_max_right bmax.x newp.position.x) ihmono.2.2.1
        · exact le_trans ihmono.2.1 (min_le_right _ _)
        · exact le_trans (le_max_right bmax.y newp.position.y) ihmono.2.2.2
      · exact ihmem q hq
    · refine ⟨?_, ?_, ?_, ?_⟩
      · exact le_trans ihmono.1 (min_le_left _ _)
      · exact le_trans ihmono.2.1 (min_le_left _ _)
      · exact le_trans (le_max_left bmax.x newp.position.x) ihmono.2.2.1
      · exact le_trans (le_max_left bmax.y newp.position.y) ihmono.2.2.2

/-- C9 counterexample: a single particle whose updated position is `(0, 0)`
(zero force kernel, identity integrator) with incoming bounds `[-5,5]²`:
after the local compute the code's `bmax.x` is still `5`, while the
component-wise max of the updated positions is `0` — the bounds are not
recomputed from the new positions. -/
theorem simulateStep_bounds_not_tight :
    ((simulateStep (fun _ _ _ => ⟨0, 0⟩) (fun p _ _ => p) ⟨.leaf [], ⟨0, 0⟩, ⟨0, 0⟩⟩
        [coincidentParticle] 1 1 ⟨-5, -5⟩ ⟨5, 5⟩).1.map fun p => p.position.x) = [0] ∧
    (simulateStep (fun _ _ _ => ⟨0, 0⟩) (fun p _ _ => p) ⟨.leaf [], ⟨0, 0⟩, ⟨0, 0⟩⟩
        [coincidentParticle] 1 1 ⟨-5, -5⟩ ⟨5, 5⟩).2.2.x = 5 ∧
    ¬((5 : ℚ) = 0) := by
  refine ⟨by decide, by decide, by decide⟩

/-- Membership in a worker's recomputed local list is membership in the
population plus ownership by that worker. -/
theorem mem_recompute (dim pid : ℤ) (gmin gmax : Vec2) (particles : List Particle)
    (p : Particle) :
    p ∈ recompute_local_particles dim pid gmin gmax particles ↔
      p ∈ particles ∧ particleOwner dim gmin gmax p = pid := by
  simp [recompute_local_particles, List.mem_filter]

/-- The displacement loop's accumulator is the byte sum of the counts. -/
theorem sizeDisplAcc_foldl (counts : List ℕ) : ∀ a : ℕ,
    counts.foldl (fun acc c => acc + c * sizeofParticle) a
      = a + counts.sum * sizeofParticle := by
  induction counts with
  | nil => intro a; simp
  | cons c rest ih =>
    intro a
    rw [List.foldl_cons, ih, List.sum_cons]
    ring

/-- `sizeDisplAcc` as a closed byte sum. -/
theorem sizeDisplAcc_eq (counts : List ℕ) :
    sizeDisplAcc counts = counts.sum * sizeofParticle := by
  unfold sizeDisplAcc
  rw [sizeDisplAcc_foldl, Nat.zero_add]

/-- Summing the indicator of `z = j` over `j < W` counts whether `z ∈ [0, W)`. -/
theorem indicator_sum_range (W : ℕ) (z : ℤ) :
    (∑ j ∈ Finset.range W, if z = (j : ℤ) then 1 else 0) =
      if 0 ≤ z ∧ z < (W : ℤ) then 1 else 0 := by
  by_cases h : 0 ≤ z ∧ z < (W : ℤ)
  · rw [if_pos h]
    rw [Finset.sum_eq_single z.toNat]
    · rw [if_pos (by omega)]
    · intro j hj hne
      rw [if_neg]
      intro hc
      exact hne (by omega)
    · intro hmem
      exact absurd (Finset.mem_range.mpr (by omega)) hmem
  · rw [if_neg h]
    apply Finset.sum_eq_zero
    intro j hj
    rw [Finset.mem_range] at hj
    rw [if_neg]
    intro hc
    exact h (by omega)

/-- A list sum over `List.range` equals the `Finset.range` sum. -/
theorem range_map_sum (W : ℕ) (f : ℕ → ℕ) :
    ((List.range W).map f).sum = ∑ j ∈ Finset.range W, f j := by
  induction W with
  | zero => simp
  | succ n ih =>
    rw [List.range_succ, List.map_append, List.sum_append, Finset.sum_range_succ, ih]
    simp

/-- The length of a filtered cons as the tail's plus an indicator. -/
theorem filter_length_cons (f : Particle → Bool) (p : Particle) (l : List Particle) :
    (List.filter f (p :: l)).length
      = (List.filter f l).length + (if f p = true then 1 else 0) := by
  by_cases hf : f p
  · simp [List.filter_cons, hf]
  · simp [List.filter_cons, hf]

/-- The gathered per-worker counts sum to the number of particles whose owner
index lies in `[0, W)` (each particle has one owner, so it is counted by at
most one worker). -/
theorem workerCounts_sum (dim : ℤ) (gmin gmax : Vec2) (W : ℕ) (particles : List Particle) :
    (workerCounts dim gmin gmax W particles).sum =
      (particles.filter fun p => decide (0 ≤ particleOwner dim gmin gmax p ∧
          particleOwner dim gmin gmax p < (W : ℤ))).length := by
  unfold workerCounts recompute_local_particles
  rw [range_map_sum]
  induction particles with
  | nil => simp
  | cons p rest ih =>
    have hstep : ∀ j ∈ Finset.range W,
        (List.filter (fun q => particleOwner dim gmin gmax q == Int.ofNat j) (p :: rest)).length
          = (List.filter (fun q => particleOwner dim gmin gmax q == Int.ofNat j) rest).length
            + (if particleOwner dim gmin gmax p = (j : ℤ) then 1 else 0) := by
      intro j _
      rw [filter_length_cons]
      congr 1
      simp
    rw [Finset.sum_congr rfl hstep, Finset.sum_add_distrib, ih, indicator_sum_range,
      filter_length_cons]
    congr 1
    simp

/-- The assertion guard at the end of a redistribution passes exactly when
every particle's owner index is a valid worker index in `[0, W)`. -/
theorem sizeCheckPasses_iff_owners_in_range (dim : ℤ) (gmin gmax : Vec2) (W : ℕ)
    (particles : List Particle) :
    sizeCheckPasses (workerCounts dim gmin gmax W particles) particles.length = true ↔
      ∀ p ∈ particles, 0 ≤ particleOwner dim gmin gmax p ∧
        particleOwner dim gmin gmax p < (W : ℤ) := by
  unfold sizeCheckPasses
  rw [beq_iff_eq, sizeDisplAcc_eq, workerCounts_sum]
  constructor
  · intro h p hp
    have hlen : (particles.filter fun p => decide (0 ≤ particleOwner dim gmin gmax p ∧
        particleOwner dim gmin gmax p < (W : ℤ))).length = particles.length :=
      Nat.eq_of_mul_eq_mul_right (by norm_num [sizeofParticle]) h
    have := List.filter_length_eq_length.mp hlen p hp
    exact of_decide_eq_true this
  · intro h
    have hlen : (particles.filter fun p => decide (0 ≤ particleOwner dim gmin gmax p ∧
        particleOwner dim gmin gmax p < (W : ℤ))).length = particles.length :=
      List.filter_length_eq_length.mpr fun p hp => decide_eq_true (h p hp)
    rw [hlen]

/-- C5: the redistribution's byte counts satisfy the size-sum invariant
exactly when every particle's owner is a valid worker index, and the
displacement-loop accumulator comparison (whose failure is the fatal
`assert(false)`) detects exactly a violation of the byte-sum equation
`Σ particle_list_sizes[j] = |particles| * sizeof(Particle)`. -/
theorem size_sum_invariant_checked (dim : ℤ) (gmin gmax : Vec2) (W : ℕ)
    (particles : List Particle) :
    (sizeCheckPasses (workerCounts dim gmin gmax W particles) particles.length = true ↔
      sizeDisplAcc (workerCounts dim gmin gmax W particles)
        = particles.length * sizeofParticle) ∧
    (sizeCheckPasses (workerCounts dim gmin gmax W particles) particles.length = true ↔
      ∀ p ∈ particles, 0 ≤ particleOwner dim gmin gmax p ∧
        particleOwner dim gmin gmax p < (W : ℤ)) := by
  constructor
  · unfold sizeCheckPasses
    exact beq_iff_eq
  · exact sizeCheckPasses_iff_owners_in_range dim gmin gmax W particles

/-- C3: after a completed redistribution (one the size-sum assertion let
through), ownership partitions the population: every particle is kept by
exactly one of the `W` workers, every kept particle comes from the population,
and distinct workers keep disjoint sets. -/
theorem redistribution_partitions_population (dim : ℤ) (gmin gmax : Vec2) (W : ℕ)
    (particles : List Particle)
    (hpass : sizeCheckPasses (workerCounts dim gmin gmax W particles) particles.length = true) :
    (∀ p ∈ particles, ∃! j : ℕ, j < W ∧
        p ∈ recompute_local_particles dim (Int.ofNat j) gmin gmax particles) ∧
    (∀ (j : ℕ) (p : Particle),
        p ∈ recompute_local_particles dim (Int.ofNat j) gmin gmax particles → p ∈ particles) ∧
    (∀ j k : ℕ, j ≠ k → ∀ p,
        p ∈ recompute_local_particles dim (Int.ofNat j) gmin gmax particles →
        p ∉ recompute_local_particles dim (Int.ofNat k) gmin gmax particles) := by
  have hall := (sizeCheckPasses_iff_owners_in_range dim gmin gmax W particles).mp hpass
  refine ⟨?_, ?_, ?_⟩
  · intro p hp
    obtain ⟨h0, hW⟩ := hall p hp
    refine ⟨(particleOwner dim gmin gmax p).toNat, ⟨by omega, ?_⟩, ?_⟩
    · refine (mem_recompute dim _ gmin gmax particles p).mpr ⟨hp, ?_⟩
      rw [Int.ofNat_eq_coe]
      omega
    · rintro j ⟨hj, hmem⟩
      have h2 := ((mem_recompute dim _ gmin gmax particles p).mp hmem).2
      rw [Int.ofNat_eq_coe] at h2
      omega
  · intro j p hmem
    exact ((mem_recompute dim _ gmin gmax particles p).mp hmem).1
  · intro j k hjk p hj hk
    have h1 := ((mem_recompute dim _ gmin gmax particles p).mp hj).2
    have h2 := ((mem_recompute dim _ gmin gmax particles p).mp hk).2
    rw [Int.ofNat_eq_coe] at h1 h2
    apply hjk
    omega

/-- C3 witness: four particles, one per cell of the 2 × 2 grid over `[0,10]²`:
the size check passes and the partition conclusion holds concretely. -/
theorem redistribution_partitions_population_witness :
    (sizeCheckPasses (workerCounts 2 ⟨0, 0⟩ ⟨10, 10⟩ 4 partitionParticles)
        partitionParticles.length = true) ∧
    ((∀ p ∈ partitionParticles, ∃! j : ℕ, j < 4 ∧
        p ∈ recompute_local_particles 2 (Int.ofNat j) ⟨0, 0⟩ ⟨10, 10⟩ partitionParticles) ∧
      (∀ (j : ℕ) (p : Particle),
          p ∈ recompute_local_particles 2 (Int.ofNat j) ⟨0, 0⟩ ⟨10, 10⟩ partitionParticles →
          p ∈ partitionParticles) ∧
      (∀ j k : ℕ, j ≠ k → ∀ p,
          p ∈ recompute_local_particles 2 (Int.ofNat j) ⟨0, 0⟩ ⟨10, 10⟩ partitionParticles →
          p ∉ recompute_local_particles 2 (Int.ofNat k) ⟨0, 0⟩ ⟨10, 10⟩ partitionParticles)) :=
  ⟨by decide, redistribution_partitions_population 2 ⟨0, 0⟩ ⟨10, 10⟩ 4 partitionParticles
    (by decide)⟩

/-- Looking up the id of the particle at index `k` in the ord map built from
`start` yields `start + k`, provided the ids are distinct. -/
theorem lookup_buildOrdAux (l : List Particle) :
    ∀ (start k : ℕ) (hk : k < l.length), (l.map Particle.id).Nodup →
      (buildOrdAux l start).lookup (l.get ⟨k, hk⟩).id = some (start + k) := by
  induction l with
  | nil => intro start k hk _; simp at hk
  | cons p rest ih =>
    intro start k hk hnd
    rw [List.map_cons, List.nodup_cons] at hnd
    cases k with
    | zero =>
      rw [buildOrdAux, List.lookup_cons]
      simp
    | succ k =>
      have hk' : k < rest.length := by
        simp only [List.length_cons] at hk
        omega
      have hmem : (rest.get ⟨k, hk'⟩).id ∈ rest.map Particle.id :=
        List.mem_map_of_mem _ (rest.get_mem k hk')
      have hne : ¬(((p :: rest).get ⟨k + 1, hk⟩).id == p.id) = true := by
        simp only [List.get_cons_succ, beq_iff_eq]
        intro hc
        exact hnd.1 (hc ▸ hmem)
      rw [buildOrdAux, List.lookup_cons]
      rw [Bool.of_not_eq_true hne]
      have := ih (start + 1) k hk' hnd.2
      rw [List.get_cons_succ]
      rw [this, Option.some.injEq]
      omega

/-- Any successful lookup in the ord map points back at an input index holding
that id. -/
theorem lookup_buildOrdAux_mem (l : List Particle) :
    ∀ (start : ℕ) (z : ℤ) (j : ℕ), (buildOrdAux l start).lookup z = some j →
      ∃ (k : ℕ) (hk : k < l.length), j = start + k ∧ (l.get ⟨k, hk⟩).id = z := by
  induction l with
  | nil => intro start z j h; simp [buildOrdAux] at h
  | cons p rest ih =>
    intro start z j h
    rw [buildOrdAux, List.lookup_cons] at h
    by_cases hz : (z == p.id) = true
    · rw [hz] at h
      refine ⟨0, by simp, by simpa using h.symm, ?_⟩
      simpa using (beq_iff_eq.mp hz).symm
    · rw [Bool.of_not_eq_true hz] at h
      obtain ⟨k, hk, hj, hid⟩ := ih (start + 1) z j h
      refine ⟨k + 1, ?_, by omega, by simpa using hid⟩
      simp only [List.length_cons]
      omega

/-- Folding `set` writes preserves the target's length. -/
theorem foldl_set_length (pos : Particle → ℕ) (gs : List Particle) :
    ∀ target : List Particle,
      (gs.foldl (fun t g => t.set (pos g) g) target).length = target.length := by
  induction gs with
  | nil => intro t; rfl
  | cons g gs ih =>
    intro t
    rw [List.foldl_cons, ih, List.length_set]

/-- Reading index `i` after a fold of in-range `set` writes at pairwise
distinct positions: the first (hence only) write at `i` if there is one,
otherwise the untouched target entry. -/
theorem foldl_set_getElem (pos : Particle → ℕ) (gs : List Particle) :
    ∀ target : List Particle, gs.Pairwise (fun a b => pos a ≠ pos b) →
      (∀ g ∈ gs, pos g < target.length) → ∀ i : ℕ,
      (gs.foldl (fun t g => t.set (pos g) g) target)[i]?
        = (match gs.find? (fun g => pos g == i) with
           | some g => some g
           | none => target[i]?) := by
  induction gs with
  | nil => intro t _ _ i; rfl
  | cons g gs ih =>
    intro t hpw hlt i
    obtain ⟨hg, hpw'⟩ := List.pairwise_cons.mp hpw
    have hlt' : ∀ g' ∈ gs, pos g' < (t.set (pos g) g).length := by
      intro g' h'
      rw [List.length_set]
      exact hlt g' (List.mem_cons_of_mem _ h')
    rw [List.foldl_cons, ih (t.set (pos g) g) hpw' hlt' i]
    by_cases hi : pos g = i
    · have hfind : gs.find? (fun g' => pos g' == i) = none := by
        rw [List.find?_eq_none]
        intro x hx
        simp only [beq_iff_eq]
        intro hc
        exact hg x hx (hi.trans hc.symm)
      rw [hfind, List.find?_cons_of_pos _ (by simp [hi])]
      show (t.set (pos g) g)[i]? = some g
      subst hi
      exact List.getElem?_set_self (hlt g (List.mem_cons_self g gs))
    · rw [List.find?_cons_of_neg _ (by simp [hi])]
      cases hf : gs.find? (fun g' => pos g' == i) with
      | some g' => rfl
      | none => exact List.getElem?_set_ne hi

/-- C8: if the gathered particles carry exactly the ids loaded from the input
file (in any order) and those ids are pairwise distinct, the coordinator's
reorder-by-`ord` loop restores the input file's original index order: the j-th
output particle has the j-th input id — not sorted by id, not grouped by worker. -/
theorem reorder_restores_input_order (input gathered : List Particle)
    (hnd : (input.map Particle.id).Nodup)
    (hperm : List.Perm (gathered.map Particle.id) (input.map Particle.id)) :
    (reorderParticles (buildOrd input) gathered).map Particle.id
      = input.map Particle.id := by
  have hlen : gathered.length = input.length := by
    have h := hperm.length_eq
    simpa using h
  have hfact : ∀ g ∈ gathered, ∃ hk : ordIndex (buildOrd input) g < input.length,
      (input.get ⟨ordIndex (buildOrd input) g, hk⟩).id = g.id := by
    intro g hg
    have hmemid : g.id ∈ input.map Particle.id :=
      hperm.subset (List.mem_map_of_mem _ hg)
    obtain ⟨q, hq, hqid⟩ := List.mem_map.mp hmemid
    obtain ⟨⟨k, hk⟩, hkeq⟩ := List.mem_iff_get.mp hq
    have hlook : (buildOrd input).lookup g.id = some k := by
      have h0 := lookup_buildOrdAux input 0 k hk hnd
      rw [hkeq, hqid] at h0
      rw [buildOrd]
      simpa using h0
    have hpos : ordIndex (buildOrd input) g = k := by
      rw [ordIndex, hlook]
      rfl
    rw [hpos]
    exact ⟨hk, by rw [hkeq, hqid]⟩
  have hnodup_g : (gathered.map Particle.id).Nodup := hperm.nodup_iff.mpr hnd
  have hpw_id : gathered.Pairwise fun a b => a.id ≠ b.id := by
    have h := hnodup_g
    rw [List.Nodup, List.pairwise_map] at h
    exact h
  have hpw : gathered.Pairwise fun a b =>
      ordIndex (buildOrd input) a ≠ ordIndex (buildOrd input) b := by
    refine hpw_id.imp_of_mem ?_
    intro a b ha hb hne hposeq
    obtain ⟨hka, hida⟩ := hfact a ha
    obtain ⟨hkb, hidb⟩ := hfact b hb
    apply hne
    rw [← hida, ← hidb]
    have hfin : (⟨ordIndex (buildOrd input) a, hka⟩ : Fin input.length)
        = ⟨ordIndex (buildOrd input) b, hkb⟩ := Fin.ext hposeq
    rw [hfin]
  have hlt : ∀ g ∈ gathered,
      ordIndex (buildOrd input) g < (List.replicate gathered.length defaultParticle).length := by
    intro g hg
    rw [List.length_replicate, hlen]
    exact (hfact g hg).1
  apply List.ext_getElem?
  intro i
  rw [List.getElem?_map, List.getElem?_map]
  rw [reorderParticles,
    foldl_set_getElem (ordIndex (buildOrd input)) gathered _ hpw hlt i]
  by_cases hi : i < input.length
  · have hexists : ∃ g ∈ gathered, (fun g => ordIndex (buildOrd input) g == i) g = true := by
      have hmemid : (input.get ⟨i, hi⟩).id ∈ gathered.map Particle.id := by
        apply hperm.symm.subset
        exact List.mem_map_of_mem _ (input.get_mem i hi)
      obtain ⟨g, hg, hgid⟩ := List.mem_map.mp hmemid
      refine ⟨g, hg, ?_⟩
      obtain ⟨hk, hid⟩ := hfact g hg
      have hik : ordIndex (buildOrd input) g = i := by
        have hinj := List.nodup_iff_injective_get.mp hnd
        have h1 : ((input.map Particle.id).get ⟨ordIndex (buildOrd input) g, by simpa using hk⟩)
            = ((input.map Particle.id).get ⟨i, by simpa using hi⟩) := by
          simp only [List.get_eq_getElem, List.getElem_map]
          simp only [List.get_eq_getElem] at hid hgid
          rw [hid, hgid]
        have := hinj h1
        simpa using congrArg Fin.val this
      simp [hik]
    cases hfind : gathered.find? (fun g => ordIndex (buildOrd input) g == i) with
    | none =>
      rw [List.find?_eq_none] at hfind
      obtain ⟨g, hg, hgt⟩ := hexists
      exact absurd hgt (by simpa using hfind g hg)
    | some g' =>
      have hg'mem := List.mem_of_find?_eq_some hfind
      have hg'pos : ordIndex (buildOrd input) g' = i := by
        have := List.find?_some hfind
        simpa using this
      obtain ⟨hk, hid⟩ := hfact g' hg'mem
      rw [List.getElem?_eq_getElem hi]
      show some g'.id = some ((input.get ⟨i, hi⟩).id)
      rw [← hid]
      have hfin : (⟨ordIndex (buildOrd input) g', hk⟩ : Fin input.length) = ⟨i, hi⟩ :=
        Fin.ext hg'pos
      rw [hfin]
  · have hnone : gathered.find? (fun g => ordIndex (buildOrd input) g == i) = none := by
      rw [List.find?_eq_none]
      intro g hg
      simp only [beq_iff_eq]
      intro hc
      exact hi (hc ▸ (hfact g hg).1)
    rw [hnone]
    have h1 : (List.replicate gathered.length defaultParticle)[i]? = none := by
      rw [List.getElem?_eq_none]
      rw [List.length_replicate, hlen]
      omega
    have h2 : input[i]? = none := by
      rw [List.getElem?_eq_none]
      omega
    rw [h1, h2]

/-- C8 witness: input ids `[7, 3, 9, 1]`, gathered as `[1, 9, 3, 7]`: the
written output carries ids `[7, 3, 9, 1]` — the original index order. -/
theorem reorder_restores_input_order_witness :
    ((orderInput.map Particle.id).Nodup ∧
      List.Perm (orderGathered.map Particle.id) (orderInput.map Particle.id)) ∧
    (reorderParticles (buildOrd orderInput) orderGathered).map Particle.id
      = orderInput.map Particle.id :=
  ⟨⟨by decide, by decide⟩,
    reorder_restores_input_order orderInput orderGathered (by decide) (by decide)⟩

/-- The box-to-point distance never exceeds the distance from the query point
to any point of the box (squared form). -/
theorem boxPointDistSq_le_sqLength (bmin bmax q v : Vec2) (h : inBox bmin bmax v) :
    boxPointDistSq bmin bmax q ≤ sqLength (q - v) := by
  obtain ⟨h1, h2, h3, h4⟩ := h
  unfold boxPointDistSq sqLength
  dsimp only
  rw [Vec2.sub_x, Vec2.sub_y]
  have hxabs : max (max (bmin.x - q.x) (q.x - bmax.x)) 0 ≤ |q.x - v.x| := by
    refine max_le (max_le ?_ ?_) (abs_nonneg _)
    · rw [abs_sub_comm]
      calc bmin.x - q.x ≤ v.x - q.x := by linarith
        _ ≤ |v.x - q.x| := le_abs_self _
    · calc q.x - bmax.x ≤ q.x - v.x := by linarith
        _ ≤ |q.x - v.x| := le_abs_self _
  have hyabs : max (max (bmin.y - q.y) (q.y - bmax.y)) 0 ≤ |q.y - v.y| := by
    refine max_le (max_le ?_ ?_) (abs_nonneg _)
    · rw [abs_sub_comm]
      calc bmin.y - q.y ≤ v.y - q.y := by linarith
        _ ≤ |v.y - q.y| := le_abs_self _
    · calc q.y - bmax.y ≤ q.y - v.y := by linarith
        _ ≤ |q.y - v.y| := le_abs_self _
  have hx0 : (0 : ℚ) ≤ max (max (bmin.x - q.x) (q.x - bmax.x)) 0 := le_max_right _ _
  have hy0 : (0 : ℚ) ≤ max (max (bmin.y - q.y) (q.y - bmax.y)) 0 := le_max_right _ _
  have hxx := mul_self_le_mul_self hx0 hxabs
  have hyy := mul_self_le_mul_self hy0 hyabs
  rw [abs_mul_abs_self] at hxx hyy
  linarith

/-- The running build bounds only widen as the fold proceeds. -/
theorem boundsStep_foldl_mono (l : List Particle) :
    ∀ b : Vec2 × Vec2,
      (l.foldl boundsStep b).1.x ≤ b.1.x ∧ (l.foldl boundsStep b).1.y ≤ b.1.y ∧
      b.2.x ≤ (l.foldl boundsStep b).2.x ∧ b.2.y ≤ (l.foldl boundsStep b).2.y := by
  induction l with
  | nil => intro b; exact ⟨le_refl _, le_refl _, le_refl _, le_refl _⟩
  | cons p rest ih =>
    intro b
    rw [List.foldl_cons]
    obtain ⟨m1, m2, m3, m4⟩ := ih (boundsStep b p)
    exact ⟨le_trans m1 (min_le_left _ _), le_trans m2 (min_le_left _ _),
      le_trans (le_max_left _ _) m3, le_trans (le_max_left _ _) m4⟩

/-- `buildQuadTree`'s computed bounding box encloses every input particle. -/
theorem computeBounds_mem (particles : List Particle) (p : Particle) (hp : p ∈ particles) :
    inBox (computeBounds particles).1 (computeBounds particles).2 p.position := by
  unfold computeBounds
  suffices h : ∀ (l : List Particle) (b : Vec2 × Vec2), p ∈ l →
      inBox (l.foldl boundsStep b).1 (l.foldl boundsStep b).2 p.position from
    h particles _ hp
  intro l
  induction l with
  | nil => intro b h; simp at h
  | cons c rest ih =>
    intro b hmem
    rw [List.foldl_cons]
    rcases List.mem_cons.mp hmem with h | h
    · subst h
      obtain ⟨m1, m2, m3, m4⟩ := boundsStep_foldl_mono rest (boundsStep b p)
      exact ⟨le_trans m1 (min_le_right _ _), le_trans (le_max_right _ _) m3,
        le_trans m2 (min_le_right _ _), le_trans (le_max_right _ _) m4⟩
    · exact ih (boundsStep b c) h

/-- Main quadtree lemma: if the build succeeds over any box enclosing all the
particles, a query's result contains exactly the particles of the input list
within the query radius. -/
theorem buildQuadTreeImpl_query_mem (fuel : ℕ) :
    ∀ (P : List Particle) (bmin bmax : Vec2) (t : QuadTreeNode),
      buildQuadTreeImpl fuel P bmin bmax = some t →
      (∀ p ∈ P, inBox bmin bmax p.position) →
      ∀ (q : Vec2) (r : ℚ) (p : Particle),
        p ∈ getParticlesImpl t bmin bmax q r ↔
          p ∈ P ∧ distLtRadius q p.position r = true := by
  induction fuel with
  | zero =>
    intro P bmin bmax t ht
    exact absurd ht (by simp [buildQuadTreeImpl])
  | succ fuel ih =>
    intro P bmin bmax t ht henc q r p
    rw [buildQuadTreeImpl] at ht
    by_cases hlen : P.length ≤ QuadTreeLeafSize
    · rw [if_pos hlen] at ht
      have htt : QuadTreeNode.leaf P = t := by
        simpa using ht
      subst htt
      rw [getParticlesImpl]
      exact List.mem_filter
    · rw [if_neg hlen] at ht
      obtain ⟨c0, hb0, ht⟩ := Option.bind_eq_some.mp ht
      obtain ⟨c1, hb1, ht⟩ := Option.bind_eq_some.mp ht
      obtain ⟨c2, hb2, ht⟩ := Option.bind_eq_some.mp ht
      obtain ⟨c3, hb3, ht⟩ := Option.map_eq_some'.mp ht
      subst ht
      have henc0 : ∀ p' ∈ P.filter (inQuad0 ((bmin.x + bmax.x) / 2) ((bmin.y + bmax.y) / 2)),
          inBox bmin ⟨(bmin.x + bmax.x) / 2, (bmin.y + bmax.y) / 2⟩ p'.position := by
        intro p' hp'
        obtain ⟨hpP, hg⟩ := List.mem_filter.mp hp'
        simp only [inQuad0, decide_eq_true_eq] at hg
        obtain ⟨e1, e2, e3, e4⟩ := henc p' hpP
        exact ⟨e1, hg.1, e3, hg.2⟩
      have henc1 : ∀ p' ∈ P.filter (inQuad1 ((bmin.x + bmax.x) / 2) ((bmin.y + bmax.y) / 2)),
          inBox ⟨(bmin.x + bmax.x) / 2, bmin.y⟩ ⟨bmax.x, (bmin.y + bmax.y) / 2⟩ p'.position := by
        intro p' hp'
        obtain ⟨hpP, hg⟩ := List.mem_filter.mp hp'
        simp only [inQuad1, decide_eq_true_eq] at hg
        obtain ⟨e1, e2, e3, e4⟩ := henc p' hpP
        exact ⟨le_of_lt hg.1, e2, e3, hg.2⟩
      have henc2 : ∀ p' ∈ P.filter (inQuad2 ((bmin.x + bmax.x) / 2) ((bmin.y + bmax.y) / 2)),
          inBox ⟨bmin.x, (bmin.y + bmax.y) / 2⟩ ⟨(bmin.x + bmax.x) / 2, bmax.y⟩ p'.position := by
        intro p' hp'
        obtain ⟨hpP, hg⟩ := List.mem_filter.mp hp'
        simp only [inQuad2, decide_eq_true_eq] at hg
        obtain ⟨e1, e2, e3, e4⟩ := henc p' hpP
        exact ⟨e1, hg.1, le_of_lt hg.2, e4⟩
      have henc3 : ∀ p' ∈ P.filter (inQuad3 ((bmin.x + bmax.x) / 2) ((bmin.y + bmax.y) / 2)),
          inBox ⟨(bmin.x + bmax.x) / 2, (bmin.y + bmax.y) / 2⟩ bmax p'.position := by
        intro p' hp'
        obtain ⟨hpP, hg⟩ := List.mem_filter.mp hp'
        simp only [inQuad3, decide_eq_true_eq] at hg
        obtain ⟨e1, e2, e3, e4⟩ := henc p' hpP
        exact ⟨le_of_lt hg.1, e2, le_of_lt hg.2, e4⟩
      have H0 := ih _ _ _ _ hb0 henc0 q r p
      have H1 := ih _ _ _ _ hb1 henc1 q r p
      have H2 := ih _ _ _ _ hb2 henc2 q r p
      have H3 := ih _ _ _ _ hb3 henc3 q r p
      rw [getParticlesImpl]
      have e0 : bmin.x + (bmax.x - bmin.x) / 2 = (bmin.x + bmax.x) / 2 := by ring
      have e1 : (bmin.x + bmax.x) / 2 + (bmax.x - bmin.x) / 2 = bmax.x := by ring
      have e2 : bmin.y + (bmax.y - bmin.y) / 2 = (bmin.y + bmax.y) / 2 := by ring
      have e3 : (bmin.y + bmax.y) / 2 + (bmax.y - bmin.y) / 2 = bmax.y := by ring
      have ebmin : (⟨bmin.x, bmin.y⟩ : Vec2) = bmin := rfl
      have ebmax : (⟨bmax.x, bmax.y⟩ : Vec2) = bmax := rfl
      rw [e0, e1, e2, e3, ebmin, ebmax]
      constructor
      · intro hmem
        simp only [List.mem_append] at hmem
        rcases hmem with (((h | h) | h) | h)
        · by_cases hT : boxPointDistLeRadius bmin
              ⟨(bmin.x + bmax.x) / 2, (bmin.y + bmax.y) / 2⟩ q r = true
          · rw [if_pos hT] at h
            obtain ⟨hf, hd⟩ := H0.mp h
            exact ⟨(List.mem_filter.mp hf).1, hd⟩
          · rw [if_neg hT] at h
            simp at h
        · by_cases hT : boxPointDistLeRadius ⟨(bmin.x + bmax.x) / 2, bmin.y⟩
              ⟨bmax.x, (bmin.y + bmax.y) / 2⟩ q r = true
          · rw [if_pos hT] at h
            obtain ⟨hf, hd⟩ := H1.mp h
            exact ⟨(List.mem_filter.mp hf).1, hd⟩
          · rw [if_neg hT] at h
            simp at h
        · by_cases hT : boxPointDistLeRadius ⟨bmin.x, (bmin.y + bmax.y) / 2⟩
              ⟨(bmin.x + bmax.x) / 2, bmax.y⟩ q r = true
          · rw [if_pos hT] at h
            obtain ⟨hf, hd⟩ := H2.mp h
            exact ⟨(List.mem_filter.mp hf).1, hd⟩
          · rw [if_neg hT] at h
            simp at h
        · by_cases hT : boxPointDistLeRadius ⟨(bmin.x + bmax.x) / 2, (bmin.y + bmax.y) / 2⟩
              bmax q r = true
          · rw [if_pos hT] at h
            obtain ⟨hf, hd⟩ := H3.mp h
            exact ⟨(List.mem_filter.mp hf).1, hd⟩
          · rw [if_neg hT] at h
            simp at h
      · rintro ⟨hpP, hdist⟩
        have hdist' := hdist
        simp only [distLtRadius, decide_eq_true_eq] at hdist'
        obtain ⟨hr, hsq⟩ := hdist'
        simp only [List.mem_append]
        by_cases hx : p.position.x ≤ (bmin.x + bmax.x) / 2 <;>
          by_cases hy : p.position.y ≤ (bmin.y + bmax.y) / 2
        · have hf : p ∈ P.filter (inQuad0 ((bmin.x + bmax.x) / 2) ((bmin.y + bmax.y) / 2)) :=
            List.mem_filter.mpr ⟨hpP, by
              simp only [inQuad0, decide_eq_true_eq]
              exact ⟨hx, hy⟩⟩
          have hT : boxPointDistLeRadius bmin
              ⟨(bmin.x + bmax.x) / 2, (bmin.y + bmax.y) / 2⟩ q r = true := by
            simp only [boxPointDistLeRadius, decide_eq_true_eq]
            exact ⟨le_of_lt hr,
              le_trans (boxPointDistSq_le_sqLength _ _ q _ (henc0 p hf)) (le_of_lt hsq)⟩
          exact Or.inl (Or.inl (Or.inl (by rw [if_pos hT]; exact H0.mpr ⟨hf, hdist⟩)))
        · have hf : p ∈ P.filter (inQuad2 ((bmin.x + bmax.x) / 2) ((bmin.y + bmax.y) / 2)) :=
            List.mem_filter.mpr ⟨hpP, by
              simp only [inQuad2, decide_eq_true_eq]
              exact ⟨hx, not_le.mp hy⟩⟩
          have hT : boxPointDistLeRadius ⟨bmin.x, (bmin.y + bmax.y) / 2⟩
              ⟨(bmin.x + bmax.x) / 2, bmax.y⟩ q r = true := by
            simp only [boxPointDistLeRadius, decide_eq_true_eq]
            exact ⟨le_of_lt hr,
              le_trans (boxPointDistSq_le_sqLength _ _ q _ (henc2 p hf)) (le_of_lt hsq)⟩
          exact Or.inl (Or.inr (by rw [if_pos hT]; exact H2.mpr ⟨hf, hdist⟩))
        · have hf : p ∈ P.filter (inQuad1 ((bmin.x + bmax.x) / 2) ((bmin.y + bmax.y) / 2)) :=
            List.mem_filter.mpr ⟨hpP, by
              simp only [inQuad1, decide_eq_true_eq]
              exact ⟨not_le.mp hx, hy⟩⟩
          have hT : boxPointDistLeRadius ⟨(bmin.x + bmax.x) / 2, bmin.y⟩
              ⟨bmax.x, (bmin.y + bmax.y) / 2⟩ q r = true := by
            simp only [boxPointDistLeRadius, decide_eq_true_eq]
            exact ⟨le_of_lt hr,
              le_trans (boxPointDistSq_le_sqLength _ _ q _ (henc1 p hf)) (le_of_lt hsq)⟩
          exact Or.inl (Or.inl (Or.inr (by rw [if_pos hT]; exact H1.mpr ⟨hf, hdist⟩)))
        · have hf : p ∈ P.filter (inQuad3 ((bmin.x + bmax.x) / 2) ((bmin.y + bmax.y) / 2)) :=
            List.mem_filter.mpr ⟨hpP, by
              simp only [inQuad3, decide_eq_true_eq]
              exact ⟨not_le.mp hx, not_le.mp hy⟩⟩
          have hT : boxPointDistLeRadius ⟨(bmin.x + bmax.x) / 2, (bmin.y + bmax.y) / 2⟩
              bmax q r = true := by
            simp only [boxPointDistLeRadius, decide_eq_true_eq]
            exact ⟨le_of_lt hr,
              le_trans (boxPointDistSq_le_sqLength _ _ q _ (henc3 p hf)) (le_of_lt hsq)⟩
          exact Or.inr (by rw [if_pos hT]; exact H3.mpr ⟨hf, hdist⟩)

/-- C1: for every particle list `P`, query point `q` and radius `r`, after a
(successful) build of the quadtree over `P` — whose bounding box encloses all
of `P` — `getParticles q r` returns exactly the particles of `P` strictly
within Euclidean distance `r` of `q`: each such particle is returned and no
other particle is. -/
theorem quadtree_query_returns_exactly_ball (fuel : ℕ) (P : List Particle) (t : QuadTree)
    (hb : buildQuadTree fuel P = some t) (q : Vec2) (r : ℚ) (p : Particle) :
    p ∈ getParticles t q r ↔ p ∈ P ∧ distLtRadius q p.position r = true := by
  unfold buildQuadTree at hb
  obtain ⟨root, hroot, hteq⟩ := Option.map_eq_some'.mp hb
  subst hteq
  unfold getParticles
  exact buildQuadTreeImpl_query_mem fuel P _ _ root hroot
    (fun p' hp' => computeBounds_mem P p' hp') q r p

/-- C1 witness: a one-particle tree built with fuel 1; the query at the
particle's position with radius 1 returns it, matching the filter. -/
theorem quadtree_query_returns_exactly_ball_witness :
    (buildQuadTree 1 [coincidentParticle]
        = some ⟨.leaf [coincidentParticle], ⟨0, 0⟩, ⟨0, 0⟩⟩) ∧
    (coincidentParticle ∈
        getParticles ⟨.leaf [coincidentParticle], ⟨0, 0⟩, ⟨0, 0⟩⟩ ⟨0, 0⟩ 1 ↔
      coincidentParticle ∈ [coincidentParticle] ∧
        distLtRadius ⟨0, 0⟩ coincidentParticle.position 1 = true) :=
  ⟨by decide, quadtree_query_returns_exactly_ball 1 [coincidentParticle]
    ⟨.leaf [coincidentParticle], ⟨0, 0⟩, ⟨0, 0⟩⟩ (by decide) ⟨0, 0⟩ 1 coincidentParticle⟩
